import Mathlib

/-!
Verification development for the Mannaz page-freshness pipeline
(scraper.py, generate_excel_report.py).

The Python source is shallowly embedded: network and parsed-document
state is passed explicitly through a Web value (for discovery) or a
fetch function (for extraction), Python sets are modelled as
duplicate-free lists, pandas data frames as a list of column names plus
rows given as association lists from column name to string value, and
Python string operations are re-implemented over character lists so
that all definitions are executable.
-/

/-! ## Python string primitives, re-implemented over character lists -/

/-- Whitespace recognised by Python str.strip. -/
def isWs (c : Char) : Bool :=
  c == ' ' || c == '\t' || c == '\n' || c == '\r' || c == '\x0b' || c == '\x0c'

/-- Python str.strip(): remove leading and trailing whitespace. -/
def pyStrip (s : String) : String :=
  String.mk (((s.toList.dropWhile isWs).reverse.dropWhile isWs).reverse)

/-- Python str.lower(). -/
def pyLower (s : String) : String :=
  String.mk (s.toList.map Char.toLower)

/-- Split a character list at every occurrence of a separator character. -/
def splitOnChar (sep : Char) : List Char → List (List Char)
  | [] => [[]]
  | c :: t =>
    match splitOnChar sep t with
    | [] => [[c]]
    | h :: r => if c == sep then [] :: h :: r else (c :: h) :: r

/-- Python str.split(sep) for a one-character separator. -/
def pySplit (s : String) (sep : Char) : List String :=
  (splitOnChar sep s.toList).map String.mk

/-- Python substring test: pat in s. -/
def strContains (s pat : String) : Bool :=
  (List.range (s.length + 1)).any (fun i => pat.toList.isPrefixOf (s.toList.drop i))

/-- Python s[:10]. -/
def pyTake10 (s : String) : String :=
  String.mk (s.toList.take 10)

/-- Python str.replace("-", " "). -/
def pyReplaceDash (s : String) : String :=
  String.mk (s.toList.map (fun c => if c == '-' then ' ' else c))

/-- Python str.title(): a letter that follows a non-letter is upper-cased,
every other letter is lower-cased. -/
def pyTitleCase (s : String) : String :=
  String.mk ((s.toList.foldl
    (fun (st : List Char × Bool) c =>
      (st.1 ++ [if c.isAlpha && !st.2 then c.toUpper else c.toLower], c.isAlpha))
    ([], false)).1)

/-- Python "; ".join(l). -/
def joinSemicolon : List String → String
  | [] => ""
  | [x] => x
  | x :: y :: r => x ++ "; " ++ joinSemicolon (y :: r)

/-- Lexicographic code-point comparison of character lists, as Python
compares strings. -/
def charListLe : List Char → List Char → Bool
  | [], _ => true
  | _ :: _, [] => false
  | x :: xs, y :: ys =>
    if x.val.toNat < y.val.toNat then true
    else if y.val.toNat < x.val.toNat then false
    else charListLe xs ys

def strLeB (a b : String) : Bool := charListLe a.toList b.toList

/-- One step of insertion sort with the Python string order. -/
def insertSorted (x : String) : List String → List String
  | [] => [x]
  | y :: ys => if strLeB x y then x :: y :: ys else y :: insertSorted x ys

/-- Python sorted(l) for strings.  Insertion sort produces the same list
as Python's stable sort because the order is total and equal strings are
indistinguishable. -/
def pySort (l : List String) : List String := l.foldr insertSorted []

/-- Python sorted(set(l)): every distinct element once, in sorted order
(List.dedup keeps one occurrence of each element). -/
def pySortedSet (l : List String) : List String := pySort l.dedup

/-- Adding an element to a Python set, with the set modelled as a
duplicate-free list. -/
def pyInsert (l : List String) (x : String) : List String :=
  if x ∈ l then l else l ++ [x]

/-! ## URL predicates and normalization (scraper.py) -/

/-- BASE = "https://www.mannaz.com/" (scraper.py line 10). -/
def BASE : String := "https://www.mannaz.com/"

/-- The article-path markers of scraper.py lines 53 and 115:
"/artikler/" in url or "/articles/" in url. -/
def isArticle (u : String) : Bool :=
  strContains u "/artikler/" || strContains u "/articles/"

/-- The pagination/category exclusion patterns of scraper.py line 117. -/
def isNoise (u : String) : Bool :=
  strContains u "/page/" || strContains u "/artikler/artikler" ||
    strContains u "/articles/articles"

/-- The listing-page markers of scraper.py line 121. -/
def isListing (u : String) : Bool :=
  strContains u "/artikler" || strContains u "/articles" ||
    strContains u "/blog" || strContains u "/inspiration"

/-- Keep the characters before the first occurrence of '#', then before
the first occurrence of '?' (Python url.split("#")[0].split("?")[0]). -/
def stripHashQuery (l : List Char) : List Char :=
  (l.takeWhile (fun c => c != '#')).takeWhile (fun c => c != '?')

/-- Remove all trailing '/' characters (Python url.rstrip("/")). -/
def rstripSlash (l : List Char) : List Char :=
  (l.reverse.dropWhile (fun c => c == '/')).reverse

/-- The crawl normalization of scraper.py line 112:
url.split("#")[0].split("?")[0].rstrip("/"). -/
def pyNormalize (s : String) : String :=
  String.mk (rstripSlash (stripHashQuery s.toList))

/-! ## Discovery world model -/

/-- A parsed sitemap XML document: sitemapLocs are the loc texts of the
nested sitemap elements (scraper.py lines 43-48); BeautifulSoup's
find_all("loc") at line 51 sees every loc element of the document, so it
is modelled as sitemapLocs ++ pageLocs. -/
structure SitemapDoc where
  sitemapLocs : List String
  pageLocs : List String

/-- The remote site as the discovery engine observes it.  A none result
models any fetch or parse failure (the code's except branches).  For
pageFetch, the returned strings are the hyperlink targets of the page
already resolved to absolute URLs (the composition of find_all("a") and
urljoin at scraper.py lines 104-105, both library calls). -/
structure Web where
  robots : Option String
  sitemapFetch : String → Option SitemapDoc
  pageFetch : String → Option (List String)

/-! ## Sitemap discovery (scraper.py lines 17-65) -/

/-- get_sitemaps of scraper.py lines 21-31: parse robots.txt for
Sitemap: directives (case-insensitive key, value after the first colon,
stripped), defaulting to BASE ++ "sitemap.xml" when none are declared or
when fetching robots.txt fails (robots = none). -/
def get_sitemaps (w : Web) : List String :=
  match w.robots with
  | none => [BASE ++ "sitemap.xml"]
  | some robotsTxt =>
    let sitemaps := (pySplit robotsTxt '\n').filterMap (fun line =>
      if "sitemap:".toList.isPrefixOf (pyLower line).toList then
        some (pyStrip (String.mk ((line.toList.dropWhile (fun c => c != ':')).drop 1)))
      else none)
    if sitemaps.isEmpty then [BASE ++ "sitemap.xml"] else sitemaps

/-- extract_from_sitemap of scraper.py lines 33-58, with the remaining
recursion budget 4 - depth as the structural argument: the source guard
"if depth > 3: return []" is exactly budget = 0, and a call at depth d
recurses at depth d + 1, budget 4 - d - 1.  A fetch failure returns no
URLs (the except branch; the fetch is the first statement of the try, so
a failure leaves urls empty). -/
def extractFromSitemapAux (w : Web) : Nat → String → List String
  | 0, _ => []
  | budget + 1, sitemapUrl =>
    match w.sitemapFetch sitemapUrl with
    | none => []
    | some doc =>
      let nested := doc.sitemapLocs.foldl
        (fun acc loc => acc ++ extractFromSitemapAux w budget (pyStrip loc)) []
      nested ++ (doc.sitemapLocs ++ doc.pageLocs).filterMap (fun loc =>
        let url := pyStrip loc
        if isArticle url then some url else none)

/-- extract_from_sitemap in the source's signature (depth counts up from
0 and the guard rejects depth > 3). -/
def extract_from_sitemap (w : Web) (sitemapUrl : String) (depth : Nat) : List String :=
  extractFromSitemapAux w (4 - depth) sitemapUrl

/-- discover_via_sitemap of scraper.py lines 17-65: concatenate the
extraction of every sitemap of get_sitemaps at depth 0 and return
sorted(set(all_urls)). -/
def discover_via_sitemap (w : Web) : List String :=
  pySortedSet ((get_sitemaps w).foldl (fun acc sm => acc ++ extract_from_sitemap w sm 0) [])

/-! ## Crawl discovery (scraper.py lines 67-131) -/

/-- The extra entry points of scraper.py lines 79-84. -/
def entryPoints : List String :=
  [BASE ++ "artikler/", BASE ++ "articles/", BASE ++ "da/artikler/", BASE ++ "en/articles/"]

/-- The body of the link loop of scraper.py lines 104-123 for one
hyperlink target: drop off-domain targets, normalize, collect article
URLs that are not pagination noise into the article set (first
component), and queue unvisited listing URLs on the frontier (second
component) while the live frontier length is under twice the page
limit. -/
def processLink (maxPages : Nat) (visited : List String)
    (st : List String × List String) (link : String) : List String × List String :=
  if BASE.toList.isPrefixOf link.toList then
    let url := pyNormalize link
    if isArticle url then
      (if isNoise url then st.1 else pyInsert st.1 url, st.2)
    else if isListing url then
      (st.1, if url ∉ visited ∧ st.2.length < maxPages * 2 then pyInsert st.2 url else st.2)
    else st
  else st

/-- The link loop of scraper.py lines 104-123 for one fetched page,
threading the article set and the frontier through the links in order. -/
def processLinks (maxPages : Nat) (visited : List String) (links : List String)
    (st : List String × List String) : List String × List String :=
  links.foldl (processLink maxPages visited) st

/-- The while loop of scraper.py lines 89-128.  Python pops an
arbitrary element from the to_visit set; the model pops the head of the
frontier list, which fixes one admissible order.  The popped URL is
added to visited before the fetch, so a fetch failure (pageFetch none)
still consumes it, as in the source. -/
def crawlLoop (w : Web) (maxPages : Nat) (visited toVisit acc : List String) : List String :=
  match toVisit with
  | [] => acc
  | current :: rest =>
    if maxPages ≤ visited.length then acc
    else if current ∈ visited then
      crawlLoop w maxPages visited rest acc
    else
      match w.pageFetch current with
      | none => crawlLoop w maxPages (current :: visited) rest acc
      | some links =>
        let res := processLinks maxPages (current :: visited) links (acc, rest)
        crawlLoop w maxPages (current :: visited) res.2 res.1
termination_by (maxPages - visited.length, toVisit.length)
decreasing_by
  all_goals try simp only [List.length_cons]
  all_goals first
    | (apply Prod.Lex.right; omega)
    | (apply Prod.Lex.left; omega)

/-- discover_via_crawl of scraper.py lines 67-131: seed the frontier
with the start URL (default BASE ++ "artikler/") and the entry points,
run the crawl loop with an empty visited set, and return the sorted
article set. -/
def discover_via_crawl (w : Web) (startUrl : Option String) (maxPages : Nat) : List String :=
  let start := startUrl.getD (BASE ++ "artikler/")
  let toVisit := entryPoints.foldl pyInsert [start]
  pySort (crawlLoop w maxPages [] toVisit [])

/-- discover_via_hybrid of scraper.py lines 133-153: the sitemap result,
plus the crawl URLs not already found by the sitemap, as a sorted set. -/
def discover_via_hybrid (w : Web) (maxCrawlPages : Nat) : List String :=
  let sitemapUrls := discover_via_sitemap w
  let crawlUrls := discover_via_crawl w none maxCrawlPages
  let newFromCrawl := crawlUrls.filter (fun u => !(sitemapUrls.contains u))
  pySortedSet (sitemapUrls ++ newFromCrawl)

/-! ## Metadata extraction (scraper.py lines 169-261) -/

/-- The metadata of one fetched article page as extract_meta reads it.
An Option (Option String) field is a two-stage lookup: the outer layer
is whether the meta tag was found, the inner layer whether it carries a
content attribute (the source checks has_attr("content") separately
after picking the first matching tag).  titleTag and h1Tag are the
stripped text of soup.title and the first h1 when present; tagTexts are
the stripped texts of the elements whose class suggests a tag role. -/
structure PageDoc where
  titleTag : Option String
  h1Tag : Option String
  publishedTime : Option (Option String)
  metaDate : Option (Option String)
  ogPublishedTime : Option (Option String)
  publishDate : Option (Option String)
  modifiedTime : Option (Option String)
  ogUpdatedTime : Option (Option String)
  lastModified : Option (Option String)
  keywords : Option (Option String)
  articleTags : List (Option String)
  tagTexts : List String

/-- One output row of extract_meta (scraper.py lines 241-249). -/
structure PageRecord where
  url : String
  language : String
  title : String
  date_created : String
  date_modified : String
  tags : String
  scraped_at : String
deriving DecidableEq

/-- The date-candidate chain of scraper.py lines 199-206: Python's
or-chain picks the first tag that was found; only then is the content
attribute checked, and a found tag without content yields "". -/
def firstMetaContent (candidates : List (Option (Option String))) : String :=
  match candidates.findSome? id with
  | some (some content) => pyTake10 content
  | some none => ""
  | none => ""

/-- extract_meta of scraper.py lines 169-261.  fetch url = none models
any failure inside the try block (network error, timeout, malformed
response); now is the wall-clock timestamp datetime.now() formats.
Python's list(set(...)) for tags enumerates in unspecified order; the
model picks one occurrence of each tag via List.dedup. -/
def extract_meta (fetch : String → Option PageDoc) (now : String) (url : String) : PageRecord :=
  match fetch url with
  | none =>
    { url := url, language := "", title := "", date_created := ""
      date_modified := "", tags := "", scraped_at := now }
  | some page =>
    let lurl := pyLower url
    let language :=
      if strContains lurl "/da/" then "DA"
      else if strContains lurl "/en/" then "EN"
      else if strContains lurl "/artikler/" then "DA"
      else if strContains lurl "/articles/" then "EN"
      else ""
    let title :=
      match page.titleTag with
      | some t => t
      | none =>
        match page.h1Tag with
        | some h => h
        | none => pyTitleCase (pyReplaceDash ((pySplit url '/').getLastD ""))
    let date_created :=
      firstMetaContent [page.publishedTime, page.metaDate, page.ogPublishedTime, page.publishDate]
    let date_modified :=
      firstMetaContent [page.modifiedTime, page.ogUpdatedTime, page.lastModified]
    let keywordTags :=
      match page.keywords with
      | some (some content) => (pySplit content ',').map pyStrip
      | _ => []
    let articleTagList := page.articleTags.filterMap (fun c => c.map pyStrip)
    let elementTags := page.tagTexts.filter (fun t => t != "" && decide (t.toList.length < 50))
    let tags := ((keywordTags ++ articleTagList ++ elementTags).filter (fun t => t != "")).dedup
    { url := url, language := language, title := title, date_created := date_created
      date_modified := date_modified, tags := joinSemicolon tags, scraped_at := now }

/-! ## Data frames and merging (scraper.py lines 281-367) -/

/-- One data-frame row: column name to string value. -/
abbrev Row := List (String × String)

/-- A pandas DataFrame, reduced to its column names and rows. -/
structure Frame where
  cols : List String
  rows : List Row
deriving DecidableEq

/-- pandas df.empty: true when either axis has length 0. -/
def Frame.isEmpty (f : Frame) : Bool := f.rows.isEmpty || f.cols.isEmpty

/-- Reading one cell; a missing entry reads as the empty string (the
frames this development reasons about carry string values, where pandas
would hold NaN for a missing cell). -/
def rowGet (r : Row) (c : String) : String :=
  match r.find? (fun p => p.1 == c) with
  | some p => p.2
  | none => ""

/-- Writing one cell: overwrite every entry of the column if present,
otherwise append the new entry. -/
def rowSet (r : Row) (c v : String) : Row :=
  if (r.find? (fun p => p.1 == c)).isSome then
    r.map (fun p => if p.1 == c then (c, v) else p)
  else r ++ [(c, v)]

def urlOf (r : Row) : String := rowGet r "url"

/-- pd.concat([a, b], ignore_index=True): rows appended, columns of b
not already in a appended to a's columns. -/
def pdConcat (a b : Frame) : Frame :=
  ⟨a.cols ++ b.cols.filter (fun c => !(a.cols.contains c)), a.rows ++ b.rows⟩

/-- The per-column update of scraper.py lines 321-323 applied to one
matching row: for col in new_df.columns, skip the url column and empty
(falsy) incoming values, otherwise overwrite. -/
def updateRow (ncols : List String) (nr r : Row) : Row :=
  ncols.foldl (fun acc c =>
    if c ≠ "url" ∧ rowGet nr c ≠ "" then rowSet acc c (rowGet nr c) else acc) r

/-- One iteration of the update-strategy loop of scraper.py lines
315-326: if any existing row shares the new row's url, update every
matching row column-wise (a column of new_df set on matching rows and
missing from merged is added to the frame, as pandas loc does);
otherwise concatenate the one-row frame. -/
def updateStep (ncols : List String) (m : Frame) (nr : Row) : Frame :=
  if m.rows.any (fun r => urlOf r == urlOf nr) then
    ⟨m.cols ++ ncols.filter (fun c => !(m.cols.contains c) && c != "url" && rowGet nr c != ""),
     m.rows.map (fun r => if urlOf r == urlOf nr then updateRow ncols nr r else r)⟩
  else pdConcat m ⟨ncols, [nr]⟩

/-- merge_data of scraper.py lines 281-338.  The unknown-strategy
branch of the source calls merge_data(existing_df, new_df, "update");
with the empty and column guards already settled on the same arguments,
that call is exactly the update branch, inlined here. -/
def merge_data (existingDf newDf : Frame) (strategy : String) : Frame :=
  if existingDf.isEmpty then newDf
  else if !(existingDf.cols.contains "url" && newDf.cols.contains "url") then
    pdConcat existingDf newDf
  else if strategy == "skip" then
    let existingUrls := existingDf.rows.map urlOf
    pdConcat existingDf
      ⟨newDf.cols, newDf.rows.filter (fun r => !(existingUrls.contains (urlOf r)))⟩
  else if strategy == "update" then
    newDf.rows.foldl (updateStep newDf.cols) existingDf
  else if strategy == "append" then
    pdConcat existingDf newDf
  else
    newDf.rows.foldl (updateStep newDf.cols) existingDf

/-- Suffix rule of the outer join: a non-key external column colliding
with a primary column gets the _external suffix. -/
def renameExt (dfCols : List String) (c : String) : String :=
  if dfCols.contains c then c ++ "_external" else c

/-- pd.merge(df, ext, on=key, how=outer) with suffixes ("", "_external"):
each primary row paired with every external row sharing its key (or kept
alone when none does), followed by the external rows whose key no
primary row carries. -/
def outerMerge (df ext : Frame) (key : String) : Frame :=
  let extRowTail := fun (r : Row) =>
    (r.filter (fun p => p.1 != key)).map (fun p => (renameExt df.cols p.1, p.2))
  let leftPart := (df.rows.map (fun l =>
    match ext.rows.filter (fun r => rowGet r key == rowGet l key) with
    | [] => [l]
    | ms => ms.map (fun r => l ++ extRowTail r))).flatten
  let rightOnly := (ext.rows.filter
      (fun r => !(df.rows.any (fun l => rowGet l key == rowGet r key)))).map
    (fun r => (key, rowGet r key) :: extRowTail r)
  ⟨df.cols ++ (ext.cols.filter (fun c => c != key)).map (renameExt df.cols), leftPart ++ rightOnly⟩

/-- merge_with_external_source of scraper.py lines 340-367.  The
external CSV is passed already parsed; none models a read failure (the
except branch returns df).  A key column missing from either side
returns the primary frame unchanged. -/
def merge_with_external_source (df : Frame) (externalCsv : Option Frame)
    (keyColumn : String) : Frame :=
  match externalCsv with
  | none => df
  | some externalDf =>
    if !(df.cols.contains keyColumn && externalDf.cols.contains keyColumn) then df
    else outerMerge df externalDf keyColumn

/-! ## Freshness classification -/

/-- A calendar date at day precision. -/
structure SimpleDate where
  year : Nat
  month : Nat
  day : Nat
deriving DecidableEq

inductive Freshness where
  | Fresh
  | Rotting
  | Outdated
deriving DecidableEq

/-- Modelled from the spec: the repository ships no freshness-computation
code under src (generate_excel_report.py and test_excel.py consume a
precomputed freshness column and only label the buckets).  Age in whole
calendar months elapsed from the modification date to the evaluation
date; a not-yet-completed month does not count. -/
def ageInMonths (today dm : SimpleDate) : Int :=
  12 * ((today.year : Int) - (dm.year : Int)) + ((today.month : Int) - (dm.month : Int))
    - (if today.day < dm.day then 1 else 0)

/-- Modelled from the spec: classification of a record's date_modified
against the evaluation date.  Fresh when the age is under 6 months,
Rotting between 6 and 12 months, Outdated at 12 months or more or when
date_modified is absent. -/
def classify_freshness (today : SimpleDate) (dateModified : Option SimpleDate) : Freshness :=
  match dateModified with
  | none => Freshness.Outdated
  | some d =>
    if ageInMonths today d < 6 then Freshness.Fresh
    else if ageInMonths today d < 12 then Freshness.Rotting
    else Freshness.Outdated

/-! ## Generic lemmas about the set and sort models -/

theorem mem_pyInsert (l : List String) (x y : String) :
    y ∈ pyInsert l x ↔ y ∈ l ∨ y = x := by
  unfold pyInsert
  split
  · rename_i hx
    constructor
    · exact Or.inl
    · rintro (h | rfl) <;> [exact h; exact hx]
  · simp [or_comm]

theorem nodup_pyInsert (l : List String) (x : String) (h : l.Nodup) :
    (pyInsert l x).Nodup := by
  unfold pyInsert
  split
  · exact h
  · rename_i hx
    simp [List.nodup_append, h, hx]

theorem insertSorted_perm (x : String) (l : List String) :
    List.Perm (insertSorted x l) (x :: l) := by
  induction l with
  | nil => rfl
  | cons y ys ih =>
    unfold insertSorted
    split
    · rfl
    · exact (ih.cons y).trans (List.Perm.swap x y ys)

theorem pySort_perm (l : List String) : List.Perm (pySort l) l := by
  induction l with
  | nil => rfl
  | cons x xs ih => exact (insertSorted_perm x (pySort xs)).trans (ih.cons x)

theorem mem_pySort (l : List String) (x : String) : x ∈ pySort l ↔ x ∈ l :=
  (pySort_perm l).mem_iff

theorem nodup_pySort (l : List String) (h : l.Nodup) : (pySort l).Nodup :=
  ((pySort_perm l).nodup_iff).mpr h

theorem nodup_pySortedSet (l : List String) : (pySortedSet l).Nodup :=
  nodup_pySort _ (List.nodup_dedup l)

theorem mem_pySortedSet (l : List String) (x : String) : x ∈ pySortedSet l ↔ x ∈ l := by
  unfold pySortedSet
  rw [mem_pySort, List.mem_dedup]

/-! ## Idempotence of the crawl URL normalization -/

theorem takeWhile_all {α : Type} {p : α → Bool} :
    ∀ {l : List α}, (∀ c ∈ l, p c = true) → l.takeWhile p = l
  | [], _ => rfl
  | c :: t, h => by
    have hc : p c = true := h c (List.mem_cons_self c t)
    simp only [List.takeWhile_cons, hc, if_true]
    exact congrArg (c :: ·) (takeWhile_all (fun x hx => h x (List.mem_cons_of_mem c hx)))

theorem mem_takeWhile_sat {α : Type} {p : α → Bool} :
    ∀ {l : List α} {x : α}, x ∈ l.takeWhile p → p x = true := by
  intro l
  induction l with
  | nil => intro x hx; simp at hx
  | cons c t ih =>
    intro x hx
    by_cases hc : p c = true
    · simp only [List.takeWhile_cons, hc, if_true] at hx
      rcases List.mem_cons.mp hx with rfl | hmem
      · exact hc
      · exact ih hmem
    · simp only [List.takeWhile_cons] at hx
      rw [Bool.not_eq_true] at hc
      simp [hc] at hx

theorem mem_takeWhile_mem {α : Type} {p : α → Bool} {l : List α} {x : α}
    (h : x ∈ l.takeWhile p) : x ∈ l :=
  (List.takeWhile_sublist p).mem h

theorem dropWhile_idem {α : Type} {p : α → Bool} :
    ∀ (l : List α), (l.dropWhile p).dropWhile p = l.dropWhile p := by
  intro l
  induction l with
  | nil => rfl
  | cons c t ih =>
    by_cases hc : p c = true
    · simp only [List.dropWhile_cons, hc, if_true]
      exact ih
    · rw [Bool.not_eq_true] at hc
      simp [List.dropWhile_cons, hc]

theorem mem_rstripSlash {l : List Char} {x : Char} (h : x ∈ rstripSlash l) : x ∈ l := by
  unfold rstripSlash at h
  rw [List.mem_reverse] at h
  have := (List.dropWhile_sublist (fun c => c == '/')).mem h
  rwa [List.mem_reverse] at this

theorem rstripSlash_idem (l : List Char) : rstripSlash (rstripSlash l) = rstripSlash l := by
  unfold rstripSlash
  rw [List.reverse_reverse, dropWhile_idem]

theorem toList_mk (l : List Char) : (String.mk l).toList = l := rfl

theorem stripHashQuery_of_clean {l : List Char}
    (h : ∀ c ∈ l, (c != '#') = true ∧ (c != '?') = true) :
    stripHashQuery l = l := by
  unfold stripHashQuery
  rw [takeWhile_all (fun c hc => (h c hc).1), takeWhile_all (fun c hc => (h c hc).2)]

theorem pyNormalize_idem (s : String) : pyNormalize (pyNormalize s) = pyNormalize s := by
  unfold pyNormalize
  rw [toList_mk]
  have hclean : ∀ c ∈ rstripSlash (stripHashQuery s.toList),
      (c != '#') = true ∧ (c != '?') = true := by
    intro c hc
    have hmem : c ∈ stripHashQuery s.toList := mem_rstripSlash hc
    unfold stripHashQuery at hmem
    have h1 : c ∈ s.toList.takeWhile (fun c => c != '#') := mem_takeWhile_mem hmem
    exact ⟨mem_takeWhile_sat (p := fun c => c != '#') h1,
      mem_takeWhile_sat (p := fun c => c != '?') hmem⟩
  rw [stripHashQuery_of_clean hclean, rstripSlash_idem]

/-! ## Cell-level lemmas about rowGet, rowSet and updateRow -/

theorem contains_iff (l : List String) (a : String) : l.contains a = true ↔ a ∈ l := by
  simp [List.contains]

theorem find?_mapSet_self (c v : String) : ∀ (r : Row),
    (r.map (fun p => if p.1 == c then (c, v) else p)).find? (fun p => p.1 == c)
      = (r.find? (fun p => p.1 == c)).map (fun _ => (c, v)) := by
  intro r
  induction r with
  | nil => rfl
  | cons p t ih =>
    by_cases hp : (p.1 == c) = true
    · simp only [List.map_cons, hp, if_true]
      simp [List.find?_cons, hp, -List.find?_map]
    · have hp2 : (p.1 == c) = false := by simpa using hp
      simp only [List.map_cons, hp, if_false, Bool.false_eq_true]
      simp [List.find?_cons, hp2, -List.find?_map]
      simpa [-List.find?_map] using ih

theorem find?_mapSet_ne (c v c2 : String) (h : c2 ≠ c) : ∀ (r : Row),
    (r.map (fun p => if p.1 == c then (c, v) else p)).find? (fun p => p.1 == c2)
      = r.find? (fun p => p.1 == c2) := by
  intro r
  induction r with
  | nil => rfl
  | cons p t ih =>
    have hcv : ((c : String) == c2) = false := beq_eq_false_iff_ne.mpr (fun hh => h hh.symm)
    by_cases hp : (p.1 == c) = true
    · have hpc : p.1 = c := by simpa using hp
      have hne : (p.1 == c2) = false := by rw [hpc]; exact hcv
      simp only [List.map_cons, hp, if_true]
      simp [List.find?_cons, hcv, hne, -List.find?_map]
      simpa [-List.find?_map] using ih
    · simp only [List.map_cons, hp, if_false, Bool.false_eq_true]
      cases hq : (p.1 == c2)
      · simp [List.find?_cons, hq, -List.find?_map]
        simpa [-List.find?_map] using ih
      · simp [List.find?_cons, hq, -List.find?_map]

theorem rowGet_rowSet_self (r : Row) (c v : String) : rowGet (rowSet r c v) c = v := by
  unfold rowSet
  split
  · rename_i hs
    unfold rowGet
    rw [find?_mapSet_self]
    obtain ⟨p, hp⟩ := Option.isSome_iff_exists.mp hs
    rw [hp]
    rfl
  · unfold rowGet
    rename_i hs
    rw [List.find?_append]
    rw [Option.not_isSome_iff_eq_none] at hs
    rw [hs]
    simp [List.find?_cons_of_pos]

theorem rowGet_rowSet_ne (r : Row) (c v c' : String) (h : c' ≠ c) :
    rowGet (rowSet r c v) c' = rowGet r c' := by
  unfold rowSet
  split
  · unfold rowGet
    rw [find?_mapSet_ne c v c' h]
  · unfold rowGet
    rw [List.find?_append]
    have hcc : (c == c') = false := by
      simp only [beq_eq_false_iff_ne, ne_eq]
      exact fun hh => h hh.symm
    have hfind : List.find? (fun p => p.1 == c') [(c, v)] = none := by
      simp [List.find?, hcc]
    rw [hfind]
    cases r.find? (fun p => p.1 == c') <;> rfl

theorem rowGet_rowSet (r : Row) (c v c2 : String) :
    rowGet (rowSet r c v) c2 = if c2 = c then v else rowGet r c2 := by
  by_cases h : c2 = c
  · subst h
    rw [if_pos rfl, rowGet_rowSet_self]
  · rw [if_neg h, rowGet_rowSet_ne r c v c2 h]

theorem rowGet_updateRow (ncols : List String) (nr : Row) (c : String) :
    ∀ (r : Row), rowGet (updateRow ncols nr r) c =
      if c ∈ ncols ∧ c ≠ "url" ∧ rowGet nr c ≠ "" then rowGet nr c else rowGet r c := by
  induction ncols with
  | nil =>
    intro r
    simp [updateRow]
  | cons c0 rest ih =>
    intro r
    have hstep : updateRow (c0 :: rest) nr r =
        updateRow rest nr
          (if c0 ≠ "url" ∧ rowGet nr c0 ≠ "" then rowSet r c0 (rowGet nr c0) else r) := by
      simp [updateRow]
    rw [hstep, ih]
    by_cases hP : c ≠ "url" ∧ rowGet nr c ≠ ""
    · by_cases hmem : c ∈ rest
      · rw [if_pos ⟨hmem, hP⟩, if_pos ⟨List.mem_cons_of_mem c0 hmem, hP⟩]
      · have hL : ¬(c ∈ rest ∧ c ≠ "url" ∧ rowGet nr c ≠ "") := fun hh => hmem hh.1
        rw [if_neg hL]
        by_cases hc0 : c = c0
        · subst hc0
          have hR : c ∈ c :: rest ∧ c ≠ "url" ∧ rowGet nr c ≠ "" :=
            ⟨List.mem_cons_self c rest, hP⟩
          rw [if_pos hR, if_pos hP, rowGet_rowSet_self]
        · have hR : ¬(c ∈ c0 :: rest ∧ c ≠ "url" ∧ rowGet nr c ≠ "") := by
            intro hh
            rcases List.mem_cons.mp hh.1 with hh1 | hh2
            · exact hc0 hh1
            · exact hmem hh2
          rw [if_neg hR]
          split
          · exact rowGet_rowSet_ne r c0 (rowGet nr c0) c hc0
          · rfl
    · have hL : ¬(c ∈ rest ∧ c ≠ "url" ∧ rowGet nr c ≠ "") := fun hh => hP hh.2
      have hR : ¬(c ∈ c0 :: rest ∧ c ≠ "url" ∧ rowGet nr c ≠ "") := fun hh => hP hh.2
      rw [if_neg hL, if_neg hR]
      split
      · rename_i hg0
        by_cases hc0 : c = c0
        · subst hc0
          exact absurd hg0 hP
        · exact rowGet_rowSet_ne r c0 (rowGet nr c0) c hc0
      · rfl

theorem urlOf_updateRow (ncols : List String) (nr r : Row) :
    urlOf (updateRow ncols nr r) = urlOf r := by
  unfold urlOf
  rw [rowGet_updateRow]
  rw [if_neg (fun hh => hh.2.1 rfl)]

/-! ## Absorption: when the update loop no longer changes a row -/

theorem rowSet_nop (r : Row) (c v : String)
    (hsome : (r.find? (fun p => p.1 == c)).isSome = true)
    (hall : ∀ p ∈ r, p.1 = c → p.2 = v) : rowSet r c v = r := by
  unfold rowSet
  rw [if_pos hsome]
  have hcongr : ∀ p ∈ r, (if p.1 == c then (c, v) else p) = id p := by
    intro p hp
    by_cases h1 : (p.1 == c) = true
    · have hpc : p.1 = c := by simpa using h1
      rw [if_pos h1]
      have hv := hall p hp hpc
      obtain ⟨p1, p2⟩ := p
      simp only [id]
      simp only at hpc hv
      rw [hpc, hv]
    · rw [if_neg h1]
      rfl
  rw [List.map_congr_left hcongr, List.map_id]

/-- Every entry of the column c of r holds the value v, and the column
is present. -/
def KeyAll (r : Row) (c v : String) : Prop :=
  (r.find? (fun p => p.1 == c)).isSome = true ∧ ∀ p ∈ r, p.1 = c → p.2 = v

theorem keyAll_rowSet_self (r : Row) (c v : String) : KeyAll (rowSet r c v) c v := by
  unfold rowSet
  split
  · rename_i hs
    constructor
    · rw [find?_mapSet_self]
      obtain ⟨p, hp⟩ := Option.isSome_iff_exists.mp hs
      rw [hp]
      rfl
    · intro p hp h1
      obtain ⟨q, hq, hqe⟩ := List.mem_map.mp hp
      by_cases h2 : (q.1 == c) = true
      · rw [if_pos h2] at hqe
        rw [← hqe]
      · rw [if_neg h2] at hqe
        rw [← hqe] at h1
        exact absurd (by simpa using h1) h2
  · rename_i hs
    constructor
    · rw [List.find?_append, Option.not_isSome_iff_eq_none.mp hs]
      simp [List.find?_cons]
    · intro p hp h1
      rcases List.mem_append.mp hp with h2 | h2
      · have hnone := List.find?_eq_none.mp (Option.not_isSome_iff_eq_none.mp hs) p h2
        simp [h1] at hnone
      · have hp2 : p = (c, v) := by simpa using h2
        rw [hp2]

theorem keyAll_rowSet_other (r : Row) (c v c2 v2 : String) (hk : KeyAll r c v)
    (h : c2 ≠ c ∨ v2 = v) : KeyAll (rowSet r c2 v2) c v := by
  by_cases hc : c2 = c
  · subst hc
    rcases h with h | h
    · exact absurd rfl h
    · subst h
      exact keyAll_rowSet_self r c2 v2
  · obtain ⟨hsome, hall⟩ := hk
    unfold rowSet
    split
    · constructor
      · rw [find?_mapSet_ne c2 v2 c (fun hh => hc hh.symm)]
        exact hsome
      · intro p hp h1
        obtain ⟨q, hq, hqe⟩ := List.mem_map.mp hp
        by_cases h2 : (q.1 == c2) = true
        · rw [if_pos h2] at hqe
          rw [← hqe] at h1
          simp only at h1
          exact absurd h1 hc
        · rw [if_neg h2] at hqe
          rw [← hqe]
          exact hall q hq (by rw [hqe]; exact h1)
    · constructor
      · rw [List.find?_append]
        obtain ⟨p, hp⟩ := Option.isSome_iff_exists.mp hsome
        rw [hp]
        rfl
      · intro p hp h1
        rcases List.mem_append.mp hp with h2 | h2
        · exact hall p h2 h1
        · have hp2 : p = (c2, v2) := by simpa using h2
          rw [hp2] at h1
          simp only at h1
          exact absurd h1 hc

theorem keyAll_updateRow (ncols : List String) (nr : Row) (c v : String)
    (hv : v = rowGet nr c) :
    ∀ (r : Row), KeyAll r c v → KeyAll (updateRow ncols nr r) c v := by
  induction ncols with
  | nil =>
    intro r hk
    simpa [updateRow] using hk
  | cons c0 rest ih =>
    intro r hk
    have hstep : updateRow (c0 :: rest) nr r =
        updateRow rest nr
          (if c0 ≠ "url" ∧ rowGet nr c0 ≠ "" then rowSet r c0 (rowGet nr c0) else r) := by
      simp [updateRow]
    rw [hstep]
    apply ih
    split
    · apply keyAll_rowSet_other r c v c0 (rowGet nr c0) hk
      by_cases hc : c0 = c
      · right
        rw [hc, hv]
      · left
        exact hc
    · exact hk

/-- The update loop for new row nr can no longer change a row: every
column it would write already holds the incoming value everywhere. -/
def RowAbsorbs (ncols : List String) (nr r : Row) : Prop :=
  ∀ c ∈ ncols, c ≠ "url" → rowGet nr c ≠ "" → KeyAll r c (rowGet nr c)

theorem updateRow_of_rowAbsorbs (ncols : List String) (nr : Row) :
    ∀ (r : Row), RowAbsorbs ncols nr r → updateRow ncols nr r = r := by
  induction ncols with
  | nil =>
    intro r h
    simp [updateRow]
  | cons c0 rest ih =>
    intro r h
    have hstep : updateRow (c0 :: rest) nr r =
        updateRow rest nr
          (if c0 ≠ "url" ∧ rowGet nr c0 ≠ "" then rowSet r c0 (rowGet nr c0) else r) := by
      simp [updateRow]
    rw [hstep]
    have htail : RowAbsorbs rest nr r := fun c hc => h c (List.mem_cons_of_mem c0 hc)
    split
    · rename_i hg
      have hk := h c0 (List.mem_cons_self c0 rest) hg.1 hg.2
      rw [rowSet_nop r c0 (rowGet nr c0) hk.1 hk.2]
      exact ih r htail
    · exact ih r htail

theorem rowAbsorbs_updateRow (ncols : List String) (nr : Row) :
    ∀ (r : Row), RowAbsorbs ncols nr (updateRow ncols nr r) := by
  induction ncols with
  | nil =>
    intro r c hc
    simp at hc
  | cons c0 rest ih =>
    intro r
    have hstep : updateRow (c0 :: rest) nr r =
        updateRow rest nr
          (if c0 ≠ "url" ∧ rowGet nr c0 ≠ "" then rowSet r c0 (rowGet nr c0) else r) := by
      simp [updateRow]
    rw [hstep]
    intro c hc hcu hcv
    rcases List.mem_cons.mp hc with hc0 | hcrest
    · subst hc0
      apply keyAll_updateRow rest nr c (rowGet nr c) rfl
      rw [if_pos ⟨hcu, hcv⟩]
      exact keyAll_rowSet_self r c (rowGet nr c)
    · exact ih _ c hcrest hcu hcv

theorem rowAbsorbs_self (nr : Row) (hwf : (nr.map Prod.fst).Nodup) (ncols : List String) :
    RowAbsorbs ncols nr nr := by
  intro c hc hcu hcv
  cases hfind : nr.find? (fun p => p.1 == c) with
  | none =>
    unfold rowGet at hcv
    rw [hfind] at hcv
    exact absurd rfl hcv
  | some p =>
    constructor
    · rw [hfind]
      rfl
    · intro q hq h1
      have hmem := List.mem_of_find?_eq_some hfind
      have hpred := List.find?_some hfind
      have hpc : p.1 = c := by simpa using hpred
      have hinj := (List.nodup_map_iff_inj_on (List.Nodup.of_map Prod.fst hwf)).mp hwf
      have hqp : q = p := hinj q hq p hmem (by rw [h1, hpc])
      rw [hqp]
      unfold rowGet
      rw [hfind]

/-! ## Frame-level absorption for the update-merge loop -/

theorem contains_false_iff (l : List String) (a : String) : l.contains a = false ↔ a ∉ l := by
  simp [List.contains]

/-- State of a frame after the update loop processed a new row nr:
some row carries nr's url, every row carrying it is fully absorbed, and
every column the loop would write exists in the frame. -/
def AbsorbedIn (m : Frame) (ncols : List String) (nr : Row) : Prop :=
  (∃ r ∈ m.rows, urlOf r = urlOf nr) ∧
  (∀ r ∈ m.rows, urlOf r = urlOf nr → RowAbsorbs ncols nr r) ∧
  (∀ c ∈ ncols, c ≠ "url" → rowGet nr c ≠ "" → c ∈ m.cols)

theorem any_urlOf_iff (rows : List Row) (nr : Row) :
    rows.any (fun r => urlOf r == urlOf nr) = true ↔ ∃ r ∈ rows, urlOf r = urlOf nr := by
  rw [List.any_eq_true]
  constructor
  · rintro ⟨r, hr, hb⟩
    exact ⟨r, hr, by simpa using hb⟩
  · rintro ⟨r, hr, he⟩
    exact ⟨r, hr, by simpa using he⟩

theorem step_of_absorbed (ncols : List String) (m : Frame) (nr : Row)
    (h : AbsorbedIn m ncols nr) : updateStep ncols m nr = m := by
  obtain ⟨hex, habs, hcols⟩ := h
  unfold updateStep
  rw [if_pos ((any_urlOf_iff m.rows nr).mpr hex)]
  have hfilter : ncols.filter
      (fun c => !(m.cols.contains c) && c != "url" && rowGet nr c != "") = [] := by
    rw [List.filter_eq_nil_iff]
    intro c hcmem
    by_cases hcu : c = "url"
    · simp [hcu]
    · by_cases hcv : rowGet nr c = ""
      · simp [hcv]
      · have hmem := hcols c hcmem hcu hcv
        simp [hmem]
  have hmap : m.rows.map (fun r => if urlOf r == urlOf nr then updateRow ncols nr r else r)
      = m.rows := by
    have hcongr : ∀ r ∈ m.rows,
        (if urlOf r == urlOf nr then updateRow ncols nr r else r) = id r := by
      intro r hr
      by_cases hb : (urlOf r == urlOf nr) = true
      · rw [if_pos hb,
          updateRow_of_rowAbsorbs ncols nr r (habs r hr (by simpa using hb))]
        rfl
      · rw [if_neg hb]
        rfl
    rw [List.map_congr_left hcongr, List.map_id]
  rw [hfilter, hmap, List.append_nil]

theorem step_establishes (ncols : List String) (m : Frame) (nr : Row)
    (hwf : (nr.map Prod.fst).Nodup) :
    AbsorbedIn (updateStep ncols m nr) ncols nr := by
  unfold updateStep
  split
  · rename_i hany
    obtain ⟨r0, hr0, hb0⟩ := List.any_eq_true.mp hany
    have hu0 : urlOf r0 = urlOf nr := by simpa using hb0
    refine ⟨⟨updateRow ncols nr r0, ?_, ?_⟩, ?_, ?_⟩
    · exact List.mem_map.mpr ⟨r0, hr0, by rw [if_pos hb0]⟩
    · rw [urlOf_updateRow]
      exact hu0
    · intro r hr hu
      obtain ⟨q, hq, hqe⟩ := List.mem_map.mp hr
      by_cases hb : (urlOf q == urlOf nr) = true
      · rw [if_pos hb] at hqe
        rw [← hqe]
        exact rowAbsorbs_updateRow ncols nr q
      · rw [if_neg hb] at hqe
        rw [← hqe] at hu
        exact absurd (by simpa using hu) hb
    · intro c hcmem hcu hcv
      rw [List.mem_append]
      by_cases hcm : c ∈ m.cols
      · exact Or.inl hcm
      · refine Or.inr (List.mem_filter.mpr ⟨hcmem, ?_⟩)
        simp [(contains_false_iff m.cols c).mpr hcm, bne_iff_ne, hcu, hcv, hcm]
  · rename_i hany
    have hnone : ∀ r ∈ m.rows, urlOf r ≠ urlOf nr := by
      intro r hr he
      exact absurd (List.any_eq_true.mpr ⟨r, hr, by simpa using he⟩) hany
    refine ⟨⟨nr, ?_, rfl⟩, ?_, ?_⟩
    · simp [pdConcat]
    · intro r hr hu
      simp only [pdConcat] at hr
      rcases List.mem_append.mp hr with h2 | h2
      · exact absurd hu (hnone r h2)
      · have h3 : r = nr := by simpa using h2
        rw [h3]
        exact rowAbsorbs_self nr hwf ncols
    · intro c hcmem hcu hcv
      simp only [pdConcat]
      rw [List.mem_append]
      by_cases hcm : c ∈ m.cols
      · exact Or.inl hcm
      · refine Or.inr (List.mem_filter.mpr ⟨hcmem, ?_⟩)
        simp [(contains_false_iff m.cols c).mpr hcm, hcm]

theorem step_preserves (ncols : List String) (m : Frame) (nr nr2 : Row)
    (h : AbsorbedIn m ncols nr) (hne : urlOf nr2 ≠ urlOf nr) :
    AbsorbedIn (updateStep ncols m nr2) ncols nr := by
  obtain ⟨⟨r0, hr0, hu0⟩, habs, hcols⟩ := h
  have hb0 : (urlOf r0 == urlOf nr2) = false := by
    rw [beq_eq_false_iff_ne]
    rw [hu0]
    exact fun hh => hne hh.symm
  unfold updateStep
  split
  · refine ⟨⟨r0, ?_, hu0⟩, ?_, ?_⟩
    · exact List.mem_map.mpr ⟨r0, hr0, by rw [if_neg (by simp [hb0])]⟩
    · intro r hr hu
      obtain ⟨q, hq, hqe⟩ := List.mem_map.mp hr
      by_cases hb : (urlOf q == urlOf nr2) = true
      · exfalso
        apply hne
        have h1 : urlOf q = urlOf nr2 := by simpa using hb
        rw [if_pos hb] at hqe
        rw [← h1, ← urlOf_updateRow ncols nr2 q, hqe, hu]
      · rw [if_neg hb] at hqe
        rw [← hqe]
        exact habs q hq (by rw [hqe]; exact hu)
    · intro c hcmem hcu hcv
      exact List.mem_append.mpr (Or.inl (hcols c hcmem hcu hcv))
  · refine ⟨⟨r0, ?_, hu0⟩, ?_, ?_⟩
    · simp only [pdConcat]
      exact List.mem_append.mpr (Or.inl hr0)
    · intro r hr hu
      simp only [pdConcat] at hr
      rcases List.mem_append.mp hr with h2 | h2
      · exact habs r h2 hu
      · have h3 : r = nr2 := by simpa using h2
        rw [h3] at hu
        exact absurd hu hne
    · intro c hcmem hcu hcv
      simp only [pdConcat]
      exact List.mem_append.mpr (Or.inl (hcols c hcmem hcu hcv))

theorem foldl_preserves (ncols : List String) (nr : Row) :
    ∀ (l : List Row) (m : Frame), AbsorbedIn m ncols nr →
      (∀ nr2 ∈ l, urlOf nr2 ≠ urlOf nr) →
      AbsorbedIn (l.foldl (updateStep ncols) m) ncols nr := by
  intro l
  induction l with
  | nil =>
    intro m h _
    exact h
  | cons x xs ih =>
    intro m h hall
    simp only [List.foldl_cons]
    exact ih (updateStep ncols m x)
      (step_preserves ncols m nr x h (hall x (List.mem_cons_self x xs)))
      (fun nr2 h2 => hall nr2 (List.mem_cons_of_mem x h2))

theorem foldl_establishes (ncols : List String) :
    ∀ (l : List Row) (m : Frame),
      (∀ r ∈ l, (r.map Prod.fst).Nodup) → (l.map urlOf).Nodup →
      ∀ nr ∈ l, AbsorbedIn (l.foldl (updateStep ncols) m) ncols nr := by
  intro l
  induction l with
  | nil =>
    intro m _ _ nr h
    simp at h
  | cons x xs ih =>
    intro m hwf hnodup nr hmem
    have hnodup2 := hnodup
    rw [List.map_cons, List.nodup_cons] at hnodup2
    simp only [List.foldl_cons]
    rcases List.mem_cons.mp hmem with rfl | hmem2
    · apply foldl_preserves
      · exact step_establishes ncols m nr (hwf nr (List.mem_cons_self nr xs))
      · intro nr2 h2 he
        exact hnodup2.1 (he ▸ List.mem_map_of_mem urlOf h2)
    · exact ih (updateStep ncols m x) (fun r h => hwf r (List.mem_cons_of_mem x h))
        hnodup2.2 nr hmem2

theorem foldl_absorbed_id (ncols : List String) :
    ∀ (l : List Row) (m : Frame), (∀ nr ∈ l, AbsorbedIn m ncols nr) →
      l.foldl (updateStep ncols) m = m := by
  intro l
  induction l with
  | nil =>
    intro m _
    rfl
  | cons x xs ih =>
    intro m h
    simp only [List.foldl_cons]
    rw [step_of_absorbed ncols m x (h x (List.mem_cons_self x xs))]
    exact ih m (fun nr h2 => h nr (List.mem_cons_of_mem x h2))

theorem foldl_cols_ext (ncols : List String) :
    ∀ (l : List Row) (m : Frame), ∃ ext, (l.foldl (updateStep ncols) m).cols = m.cols ++ ext := by
  intro l
  induction l with
  | nil =>
    intro m
    exact ⟨[], (List.append_nil m.cols).symm⟩
  | cons x xs ih =>
    intro m
    simp only [List.foldl_cons]
    have hstep : ∃ e1, (updateStep ncols m x).cols = m.cols ++ e1 := by
      unfold updateStep
      split
      · exact ⟨_, rfl⟩
      · exact ⟨_, rfl⟩
    obtain ⟨e1, h1⟩ := hstep
    obtain ⟨e2, h2⟩ := ih (updateStep ncols m x)
    exact ⟨e1 ++ e2, by rw [h2, h1, List.append_assoc]⟩

theorem foldl_rows_ne_nil (ncols : List String) :
    ∀ (l : List Row) (m : Frame), m.rows ≠ [] → (l.foldl (updateStep ncols) m).rows ≠ [] := by
  intro l
  induction l with
  | nil =>
    intro m h
    exact h
  | cons x xs ih =>
    intro m h
    simp only [List.foldl_cons]
    apply ih
    unfold updateStep
    split
    · simpa [List.map_eq_nil_iff] using h
    · simp [pdConcat]

/-! ## Normal forms of merge_data per strategy -/

theorem merge_data_update_eq (a b : Frame) :
    merge_data a b "update" =
      if a.isEmpty then b
      else if !(a.cols.contains "url" && b.cols.contains "url") then pdConcat a b
      else b.rows.foldl (updateStep b.cols) a := by
  rfl

theorem merge_data_skip_eq (a b : Frame) :
    merge_data a b "skip" =
      if a.isEmpty then b
      else if !(a.cols.contains "url" && b.cols.contains "url") then pdConcat a b
      else pdConcat a ⟨b.cols, b.rows.filter (fun r => !((a.rows.map urlOf).contains (urlOf r)))⟩ := by
  rfl

theorem isEmpty_false_parts (f : Frame) (h : f.isEmpty = false) :
    f.rows ≠ [] ∧ f.cols ≠ [] := by
  unfold Frame.isEmpty at h
  rw [Bool.or_eq_false_iff] at h
  constructor
  · intro hh
    rw [hh] at h
    simp at h
  · intro hh
    rw [hh] at h
    simp at h

theorem ne_nil_of_mem {l : List String} {a : String} (h : a ∈ l) : l ≠ [] := by
  intro hh
  rw [hh] at h
  simp at h

/-- C8 (amended): Update merge is idempotent provided the new-record
set carries no duplicate url values and well-formed rows (one entry per
column); without that proviso the claim fails, see the counterexample. -/
theorem update_merge_idempotent (e n : Frame)
    (hue : "url" ∈ e.cols) (hun : "url" ∈ n.cols)
    (hnodup : (n.rows.map urlOf).Nodup)
    (hwf : ∀ r ∈ n.rows, (r.map Prod.fst).Nodup) :
    merge_data (merge_data e n "update") n "update" = merge_data e n "update" := by
  have hcn : n.cols.contains "url" = true := (contains_iff _ _).mpr hun
  by_cases he : e.isEmpty = true
  · rw [merge_data_update_eq e n, if_pos he]
    by_cases hne : n.isEmpty = true
    · rw [merge_data_update_eq, if_pos hne]
    · rw [merge_data_update_eq n n, if_neg hne, if_neg (by simp [hun])]
      apply foldl_absorbed_id
      intro nr hmem
      refine ⟨⟨nr, hmem, rfl⟩, ?_, fun c hc _ _ => hc⟩
      intro r hr hu
      have hinj := (List.nodup_map_iff_inj_on (List.Nodup.of_map urlOf hnodup)).mp hnodup
      have hrnr : r = nr := hinj r hr nr hmem hu
      rw [hrnr]
      exact rowAbsorbs_self nr (hwf nr hmem) n.cols
  · rw [Bool.not_eq_true] at he
    have hce : e.cols.contains "url" = true := (contains_iff _ _).mpr hue
    have hM : merge_data e n "update" = n.rows.foldl (updateStep n.cols) e := by
      rw [merge_data_update_eq, if_neg (by rw [he]; exact Bool.false_ne_true),
        if_neg (by simp [hue, hun])]
    rw [hM]
    have hMrows : (n.rows.foldl (updateStep n.cols) e).rows ≠ [] :=
      foldl_rows_ne_nil n.cols n.rows e (isEmpty_false_parts e he).1
    obtain ⟨ext, hext⟩ := foldl_cols_ext n.cols n.rows e
    have hMcols : "url" ∈ (n.rows.foldl (updateStep n.cols) e).cols := by
      rw [hext]
      exact List.mem_append.mpr (Or.inl hue)
    have hMempty : (n.rows.foldl (updateStep n.cols) e).isEmpty = false := by
      unfold Frame.isEmpty
      rw [Bool.or_eq_false_iff]
      constructor
      · cases hb : (n.rows.foldl (updateStep n.cols) e).rows.isEmpty
        · rfl
        · exact absurd (List.isEmpty_iff.mp hb) hMrows
      · cases hb : (n.rows.foldl (updateStep n.cols) e).cols.isEmpty
        · rfl
        · exact absurd (List.isEmpty_iff.mp hb) (ne_nil_of_mem hMcols)
    rw [merge_data_update_eq, if_neg (by rw [hMempty]; exact Bool.false_ne_true),
      if_neg (by simp [hMcols, hun])]
    exact foldl_absorbed_id n.cols n.rows _ (foldl_establishes n.cols n.rows e hwf hnodup)

/-- Existing dataset for the idempotence counterexample: a proper table
with the PageRecord key column but no rows. -/
def c8Existing : Frame := ⟨["url", "title"], []⟩

/-- New records carrying the same url twice. -/
def c8New : Frame :=
  ⟨["url", "title"],
   [[("url", "a"), ("title", "x")], [("url", "a"), ("title", "y")]]⟩

/-- C8 counterexample: with a duplicate url in the new-record set, the
second Update merge changes the dataset again, so the claim as stated
(for every dataset and new-record set) is false. -/
theorem update_merge_idempotent_counterexample :
    merge_data (merge_data c8Existing c8New "update") c8New "update" ≠
      merge_data c8Existing c8New "update" := by
  decide

def c8wExisting : Frame := ⟨["url", "title"], [[("url", "b"), ("title", "B")]]⟩

def c8wNew : Frame := ⟨["url", "title"], [[("url", "a"), ("title", "x")]]⟩

/-- Witness for C8 at a concrete input. -/
theorem update_merge_idempotent_witness :
    ("url" ∈ c8wExisting.cols ∧ "url" ∈ c8wNew.cols ∧
      (c8wNew.rows.map urlOf).Nodup ∧ ∀ r ∈ c8wNew.rows, (r.map Prod.fst).Nodup) ∧
    merge_data (merge_data c8wExisting c8wNew "update") c8wNew "update" =
      merge_data c8wExisting c8wNew "update" :=
  ⟨⟨by decide, by decide, by decide, by decide⟩,
    update_merge_idempotent c8wExisting c8wNew (by decide) (by decide) (by decide) (by decide)⟩

/-! ## Url uniqueness through the merge strategies -/

theorem step_urlOf_nodup (ncols : List String) (m : Frame) (nr : Row)
    (h : (m.rows.map urlOf).Nodup) : ((updateStep ncols m nr).rows.map urlOf).Nodup := by
  unfold updateStep
  split
  · rename_i hany
    have hmap : (m.rows.map
        (fun r => if urlOf r == urlOf nr then updateRow ncols nr r else r)).map urlOf
        = m.rows.map urlOf := by
      rw [List.map_map]
      apply List.map_congr_left
      intro r hr
      simp only [Function.comp]
      split
      · exact urlOf_updateRow ncols nr r
      · rfl
    show ((m.rows.map
      (fun r => if urlOf r == urlOf nr then updateRow ncols nr r else r)).map urlOf).Nodup
    rw [hmap]
    exact h
  · rename_i hany
    simp only [pdConcat, List.map_append, List.map_cons, List.map_nil]
    rw [List.nodup_append]
    refine ⟨h, List.nodup_singleton _, ?_⟩
    intro a ha hb
    have hb2 : a = urlOf nr := by simpa using hb
    obtain ⟨r, hr, hre⟩ := List.mem_map.mp ha
    apply hany
    exact List.any_eq_true.mpr ⟨r, hr, by simp [hre, hb2]⟩

theorem foldl_urlOf_nodup (ncols : List String) :
    ∀ (l : List Row) (m : Frame), (m.rows.map urlOf).Nodup →
      ((l.foldl (updateStep ncols) m).rows.map urlOf).Nodup := by
  intro l
  induction l with
  | nil =>
    intro m h
    exact h
  | cons x xs ih =>
    intro m h
    simp only [List.foldl_cons]
    exact ih (updateStep ncols m x) (step_urlOf_nodup ncols m x h)

/-- C7 (amended): Skip and Update merges preserve uniqueness of url
values provided both the existing dataset and the new-record set are
free of duplicate urls; Skip can produce duplicates when the new set
itself repeats a url, see the counterexample. -/
theorem merge_skip_update_url_nodup (e n : Frame)
    (hue : "url" ∈ e.cols) (hun : "url" ∈ n.cols)
    (hde : (e.rows.map urlOf).Nodup) (hdn : (n.rows.map urlOf).Nodup) :
    ((merge_data e n "skip").rows.map urlOf).Nodup ∧
    ((merge_data e n "update").rows.map urlOf).Nodup := by
  by_cases he : e.isEmpty = true
  · rw [merge_data_skip_eq, merge_data_update_eq, if_pos he, if_pos he]
    exact ⟨hdn, hdn⟩
  · constructor
    · rw [merge_data_skip_eq, if_neg he, if_neg (by simp [hue, hun])]
      simp only [pdConcat, List.map_append]
      rw [List.nodup_append]
      refine ⟨hde, ?_, ?_⟩
      · exact List.Nodup.sublist
          (List.Sublist.map urlOf (List.filter_sublist n.rows)) hdn
      · intro a ha hb
        obtain ⟨r, hr, hre⟩ := List.mem_map.mp hb
        have hp := (List.mem_filter.mp hr).2
        rw [Bool.not_eq_true'] at hp
        exact (contains_false_iff (e.rows.map urlOf) (urlOf r)).mp hp (hre ▸ ha)
    · rw [merge_data_update_eq, if_neg he, if_neg (by simp [hue, hun])]
      exact foldl_urlOf_nodup n.cols n.rows e hde

def c7Existing : Frame := ⟨["url", "title"], [[("url", "a"), ("title", "A")]]⟩

def c7New : Frame :=
  ⟨["url", "title"],
   [[("url", "b"), ("title", "B1")], [("url", "b"), ("title", "B2")]]⟩

/-- C7 counterexample: the existing dataset has unique urls, yet a Skip
merge of a new-record set repeating one url yields duplicate urls. -/
theorem merge_skip_nodup_counterexample :
    (c7Existing.rows.map urlOf).Nodup ∧
      ¬ ((merge_data c7Existing c7New "skip").rows.map urlOf).Nodup := by
  decide

def c7wExisting : Frame := ⟨["url", "title"], [[("url", "a"), ("title", "A")]]⟩

def c7wNew : Frame :=
  ⟨["url", "title"],
   [[("url", "a"), ("title", "A2")], [("url", "b"), ("title", "B")]]⟩

/-- Witness for C7 at a concrete input. -/
theorem merge_skip_update_url_nodup_witness :
    ("url" ∈ c7wExisting.cols ∧ "url" ∈ c7wNew.cols ∧
      (c7wExisting.rows.map urlOf).Nodup ∧ (c7wNew.rows.map urlOf).Nodup) ∧
    ((merge_data c7wExisting c7wNew "skip").rows.map urlOf).Nodup ∧
    ((merge_data c7wExisting c7wNew "update").rows.map urlOf).Nodup :=
  ⟨⟨by decide, by decide, by decide, by decide⟩,
    merge_skip_update_url_nodup c7wExisting c7wNew (by decide) (by decide) (by decide) (by decide)⟩

/-- C2: under the Update strategy, an incoming record whose url is
present updates every matching row column by column, overwriting only
with non-empty incoming values; an incoming record with a fresh url is
appended as-is. -/
theorem update_merge_field_semantics (e : Frame) (ncols : List String) (nr : Row)
    (he : e.isEmpty = false) (hue : "url" ∈ e.cols) (hun : "url" ∈ ncols) :
    ((merge_data e ⟨ncols, [nr]⟩ "update").rows =
      if e.rows.any (fun r => urlOf r == urlOf nr) then
        e.rows.map (fun r => if urlOf r == urlOf nr then updateRow ncols nr r else r)
      else e.rows ++ [nr]) ∧
    ∀ (r : Row) (c : String), c ∈ ncols → c ≠ "url" →
      rowGet (updateRow ncols nr r) c =
        if rowGet nr c = "" then rowGet r c else rowGet nr c := by
  constructor
  · rw [merge_data_update_eq, if_neg (by rw [he]; exact Bool.false_ne_true),
      if_neg (by simp [hue, hun])]
    simp only [List.foldl_cons, List.foldl_nil]
    unfold updateStep
    split
    · rfl
    · rfl
  · intro r c hc hcu
    rw [rowGet_updateRow]
    by_cases hv : rowGet nr c = ""
    · rw [if_pos hv, if_neg (fun hh => hh.2.2 hv)]
    · rw [if_neg hv, if_pos ⟨hc, hcu, hv⟩]

def c2Existing : Frame := ⟨["url", "title"], [[("url", "a"), ("title", "T")]]⟩

def c2NewRow : Row := [("url", "a"), ("title", "")]

/-- Witness for C2: an incoming empty title does not overwrite the
stored non-empty title. -/
theorem update_merge_field_semantics_witness :
    (merge_data c2Existing ⟨["url", "title"], [c2NewRow]⟩ "update").rows =
      [[("url", "a"), ("title", "T")]] := by
  have h := update_merge_field_semantics c2Existing ["url", "title"] c2NewRow
    (by decide) (by decide) (by decide)
  rw [h.1]
  decide

/-- C10: merging into an empty existing dataset returns the new frame
unchanged for every strategy string. -/
theorem merge_empty_existing (existingDf newDf : Frame) (strategy : String)
    (h : existingDf.isEmpty = true) : merge_data existingDf newDf strategy = newDf := by
  unfold merge_data
  rw [if_pos h]

def c10New : Frame := ⟨["url", "title"], [[("url", "a"), ("title", "T")]]⟩

/-- Witness for C10 with an unknown strategy name. -/
theorem merge_empty_existing_witness :
    (Frame.mk ["url"] []).isEmpty = true ∧
      merge_data ⟨["url"], []⟩ c10New "banana" = c10New :=
  ⟨rfl, merge_empty_existing ⟨["url"], []⟩ c10New "banana" rfl⟩

/-- C4 (amended): with the url column missing on either side, the
primary merge is non-fatal but returns the concatenation of the two
frames, not the unmodified primary dataset; external-source
reconciliation with a missing key column does return the primary
dataset unchanged. -/
theorem merge_missing_key_behavior :
    (∀ (e n : Frame) (s : String), e.isEmpty = false →
      (e.cols.contains "url" && n.cols.contains "url") = false →
      merge_data e n s = pdConcat e n) ∧
    (∀ (df ext : Frame) (key : String),
      (df.cols.contains key && ext.cols.contains key) = false →
      merge_with_external_source df (some ext) key = df) := by
  constructor
  · intro e n s he hc
    unfold merge_data
    rw [if_neg (by rw [he]; exact Bool.false_ne_true), if_pos (by rw [hc]; rfl)]
  · intro df ext key hc
    show (if (!(df.cols.contains key && ext.cols.contains key)) = true then df
      else outerMerge df ext key) = df
    rw [if_pos (by rw [hc]; rfl)]

def c4Existing : Frame := ⟨["title"], [[("title", "X")]]⟩

def c4New : Frame := ⟨["url"], [[("url", "a")]]⟩

/-- C4 counterexample: the primary merge with a missing url column does
not return the primary dataset unmodified. -/
theorem merge_missing_key_counterexample :
    merge_data c4Existing c4New "update" ≠ c4Existing := by
  decide

def c4wExisting : Frame := ⟨["title"], [[("title", "X")]]⟩

def c4wNew : Frame := ⟨["url"], [[("url", "a")]]⟩

/-- Witness for C4 at a concrete input. -/
theorem merge_missing_key_behavior_witness :
    (c4wExisting.isEmpty = false ∧
      (c4wExisting.cols.contains "url" && c4wNew.cols.contains "url") = false) ∧
    merge_data c4wExisting c4wNew "update" = pdConcat c4wExisting c4wNew ∧
    merge_with_external_source c4wExisting (some c4wNew) "url" = c4wExisting :=
  ⟨⟨by decide, by decide⟩,
    merge_missing_key_behavior.1 c4wExisting c4wNew "update" (by decide) (by decide),
    merge_missing_key_behavior.2 c4wExisting c4wNew "url" (by decide)⟩

/-- C6: sitemap extraction beyond the depth bound contributes zero
URLs; together with the structural recursion on the remaining budget
this bounds the traversal at depth 3 on every sitemap graph, cyclic
ones included. -/
theorem sitemap_recursion_depth_bound (w : Web) (sitemapUrl : String) (depth : Nat)
    (h : 3 < depth) : extract_from_sitemap w sitemapUrl depth = [] := by
  unfold extract_from_sitemap
  have h4 : 4 - depth = 0 := by omega
  rw [h4]
  rfl

def c6Web : Web := ⟨none, fun _ => none, fun _ => none⟩

/-- Witness for C6 at depth 4. -/
theorem sitemap_recursion_depth_bound_witness :
    3 < 4 ∧ extract_from_sitemap c6Web "https://www.mannaz.com/sitemap.xml" 4 = [] :=
  ⟨by decide,
    sitemap_recursion_depth_bound c6Web "https://www.mannaz.com/sitemap.xml" 4 (by decide)⟩

/-- C9: extraction is total, always records the input url and the
wall-clock timestamp, and on any fetch failure returns the record with
every other field empty. -/
theorem extract_meta_failure_boundary (fetch : String → Option PageDoc) (now url : String) :
    (extract_meta fetch now url).url = url ∧
    (extract_meta fetch now url).scraped_at = now ∧
    (fetch url = none →
      extract_meta fetch now url =
        { url := url, language := "", title := "", date_created := ""
          date_modified := "", tags := "", scraped_at := now }) := by
  unfold extract_meta
  cases h : fetch url with
  | none => exact ⟨rfl, rfl, fun _ => rfl⟩
  | some page => exact ⟨rfl, rfl, fun hh => by simp at hh⟩

/-- Witness for C9 on a world where every fetch fails. -/
theorem extract_meta_failure_boundary_witness :
    extract_meta (fun _ => none) "2025-01-15 12:00:00" "https://www.mannaz.com/artikler/x" =
      { url := "https://www.mannaz.com/artikler/x", language := "", title := ""
        date_created := "", date_modified := "", tags := ""
        scraped_at := "2025-01-15 12:00:00" } :=
  (extract_meta_failure_boundary (fun _ => none) "2025-01-15 12:00:00"
    "https://www.mannaz.com/artikler/x").2.2 rfl

/-- C3: the spec-modelled freshness classification is a pure function
of the modification date and the evaluation date, with the Fresh,
Rotting and Outdated buckets exactly at the under-6, 6-to-12, and
12-or-more month boundaries, an absent date being Outdated. -/
theorem freshness_classification_correct (today d : SimpleDate) :
    classify_freshness today none = Freshness.Outdated ∧
    (classify_freshness today (some d) = Freshness.Fresh ↔ ageInMonths today d < 6) ∧
    (classify_freshness today (some d) = Freshness.Rotting ↔
      6 ≤ ageInMonths today d ∧ ageInMonths today d < 12) ∧
    (classify_freshness today (some d) = Freshness.Outdated ↔ 12 ≤ ageInMonths today d) := by
  refine ⟨rfl, ?_, ?_, ?_⟩ <;>
    · unfold classify_freshness
      by_cases h6 : ageInMonths today d < 6 <;>
        by_cases h12 : ageInMonths today d < 12 <;>
          simp [h6, h12] <;> omega

/-! ## Crawl-loop invariant: the article set stays normalized, noise-free
and duplicate-free -/

/-- Invariant carried by the crawl's article set. -/
def GoodAcc (l : List String) : Prop :=
  l.Nodup ∧ ∀ u ∈ l, pyNormalize u = u ∧ isArticle u = true ∧ isNoise u = false

theorem processLink_good (maxPages : Nat) (visited : List String)
    (st : List String × List String) (link : String) (h : GoodAcc st.1) :
    GoodAcc (processLink maxPages visited st link).1 := by
  unfold processLink
  by_cases hpre : BASE.toList.isPrefixOf link.toList = true
  · rw [if_pos hpre]
    dsimp only
    by_cases hart : isArticle (pyNormalize link) = true
    · rw [if_pos hart]
      by_cases hnoise : isNoise (pyNormalize link) = true
      · rw [if_pos hnoise]
        exact h
      · rw [if_neg hnoise]
        constructor
        · exact nodup_pyInsert _ _ h.1
        · intro u hu
          rcases (mem_pyInsert _ _ u).mp hu with hmem | rfl
          · exact h.2 u hmem
          · refine ⟨pyNormalize_idem link, hart, ?_⟩
            rw [Bool.not_eq_true] at hnoise
            exact hnoise
    · rw [if_neg hart]
      by_cases hlist : isListing (pyNormalize link) = true
      · rw [if_pos hlist]
        exact h
      · rw [if_neg hlist]
        exact h
  · rw [if_neg hpre]
    exact h

theorem processLinks_good (maxPages : Nat) (visited : List String) :
    ∀ (links : List String) (st : List String × List String),
      GoodAcc st.1 → GoodAcc (processLinks maxPages visited links st).1 := by
  intro links
  induction links with
  | nil =>
    intro st h
    exact h
  | cons link rest ih =>
    intro st h
    unfold processLinks
    simp only [List.foldl_cons]
    exact ih (processLink maxPages visited st link) (processLink_good maxPages visited st link h)

theorem crawlLoop_good (w : Web) (maxPages : Nat) (visited toVisit acc : List String)
    (h : GoodAcc acc) : GoodAcc (crawlLoop w maxPages visited toVisit acc) := by
  unfold crawlLoop
  split
  · exact h
  · split
    · exact h
    · split
      · exact crawlLoop_good w maxPages visited _ acc h
      · split
        · exact crawlLoop_good w maxPages _ _ acc h
        · exact crawlLoop_good w maxPages _ _ _
            (processLinks_good maxPages _ _ _ h)
termination_by (maxPages - visited.length, toVisit.length)
decreasing_by
  all_goals try subst_vars
  all_goals try simp only [List.length_cons]
  all_goals first
    | (apply Prod.Lex.right; omega)
    | (apply Prod.Lex.left; omega)

theorem discover_via_crawl_good (w : Web) (startUrl : Option String) (maxPages : Nat) :
    (discover_via_crawl w startUrl maxPages).Nodup ∧
    ∀ u ∈ discover_via_crawl w startUrl maxPages,
      pyNormalize u = u ∧ isArticle u = true ∧ isNoise u = false := by
  have hg := crawlLoop_good w maxPages []
    (entryPoints.foldl pyInsert [(startUrl.getD (BASE ++ "artikler/"))]) []
    ⟨List.nodup_nil, by simp⟩
  constructor
  · exact nodup_pySort _ hg.1
  · intro u hu
    exact hg.2 u ((mem_pySort _ u).mp hu)

/-- C1 (amended): crawl discovery returns a collection with no
duplicates after normalization (every member is a normalization fixed
point), every member matches an article marker, and no member matches
the pagination/listing exclusion patterns; sitemap and hybrid discovery
return collections with no exact duplicates, but apply no normalization
and no noise filtering, see the counterexample. -/
theorem discovery_dedup_and_noise (w : Web) (startUrl : Option String)
    (maxPages maxCrawlPages : Nat) :
    (discover_via_sitemap w).Nodup ∧
    (discover_via_hybrid w maxCrawlPages).Nodup ∧
    ((discover_via_crawl w startUrl maxPages).map pyNormalize).Nodup ∧
    (discover_via_crawl w startUrl maxPages).all
      (fun u => isArticle u && !(isNoise u)) = true := by
  have hc := discover_via_crawl_good w startUrl maxPages
  refine ⟨?_, ?_, ?_, ?_⟩
  · unfold discover_via_sitemap
    exact nodup_pySortedSet _
  · simp only [discover_via_hybrid]
    exact nodup_pySortedSet _
  · have hmap : (discover_via_crawl w startUrl maxPages).map pyNormalize
        = discover_via_crawl w startUrl maxPages := by
      have hcongr : ∀ u ∈ discover_via_crawl w startUrl maxPages, pyNormalize u = id u :=
        fun u hu => (hc.2 u hu).1
      rw [List.map_congr_left hcongr, List.map_id]
    rw [hmap]
    exact hc.1
  · rw [List.all_eq_true]
    intro u hu
    obtain ⟨h1, h2, h3⟩ := hc.2 u hu
    simp [h2, h3]

/-- A concrete world for the C1 counterexample: robots.txt is
unavailable (so the default sitemap is used) and the only sitemap lists
a trailing-slash variant and a pagination URL among the articles. -/
def c1Web : Web :=
  { robots := none
    sitemapFetch := fun u =>
      if u == "https://www.mannaz.com/sitemap.xml" then
        some { sitemapLocs := []
               pageLocs := ["https://www.mannaz.com/artikler/a",
                            "https://www.mannaz.com/artikler/a/",
                            "https://www.mannaz.com/artikler/page/2"] }
      else none
    pageFetch := fun _ => none }

/-- C1 counterexample: sitemap discovery keeps two URLs that collapse
under normalization and keeps a pagination URL, so the claim as stated
for every strategy is false. -/
theorem discovery_dedup_counterexample :
    ¬ ((discover_via_sitemap c1Web).map pyNormalize).Nodup ∧
      (discover_via_sitemap c1Web).any isNoise = true := by
  decide

/-- C5: hybrid discovery returns exactly the set union of the
standalone sitemap result and the standalone crawl result; as a set
equation the outcome is independent of which strategy contributes a URL
first. -/
theorem hybrid_union_of_sitemap_and_crawl (w : Web) (maxCrawlPages : Nat) :
    (discover_via_hybrid w maxCrawlPages).toFinset =
      (discover_via_sitemap w).toFinset ∪
        (discover_via_crawl w none maxCrawlPages).toFinset := by
  ext u
  simp only [List.mem_toFinset, Finset.mem_union]
  simp only [discover_via_hybrid]
  rw [mem_pySortedSet, List.mem_append]
  constructor
  · rintro (h | h)
    · exact Or.inl h
    · exact Or.inr (List.mem_filter.mp h).1
  · rintro (h | h)
    · exact Or.inl h
    · by_cases hs : u ∈ discover_via_sitemap w
      · exact Or.inl hs
      · refine Or.inr (List.mem_filter.mpr ⟨h, ?_⟩)
        simp [(contains_false_iff _ _).mpr hs, hs]
